import Mathlib

/-!
# A3sist Python services: Analyzer and RefactorEngine

Shallow embedding of
`src/A3sist.Core/Agents/Language/Python/Services/Analyzer.py` and
`src/A3sist.Core/Agents/Language/Python/Services/RefactorEngine.py`.

Both services parse Python source with `ast.parse`, walk the tree with
`ast.walk` (a breadth-first traversal using a deque), and either collect
findings (`analyze_code`) or build — but never attach — replacement nodes
(`refactor_code`), finally regenerating text with `ast.unparse`.

The embedding models the fragment of the Python language these services
exercise: modules of statements, where a statement is a `pass`, an
expression statement, or a zero-argument `def` with an indented block, and
an expression is an identifier, an attribute access, or a call.  Machine
behaviour of `ast.parse` / `ast.unparse` on this fragment is embedded as
executable `parseSrc` / `unparse` functions on which a round-trip theorem
is proved.
-/

namespace A3sist

/-- Abstract syntax nodes for the fragment of Python's `ast` that the two
services touch: `Module`, `FunctionDef` (name and body; the services read
no other field), `Pass`, `Expr` statements, `Call`, `Attribute`, `Name`. -/
inductive Node where
  | module (body : List Node)
  | functionDef (fname : String) (body : List Node)
  | passStmt
  | exprStmt (value : Node)
  | call (func : Node) (args : List Node)
  | attributeN (value : Node) (attr : String)
  | nameN (id : String)

namespace Node

/-- The child nodes of a node, in the order `ast.iter_child_nodes` yields
them (field order of the Python grammar). -/
def children : Node → List Node
  | module body => body
  | functionDef _ body => body
  | passStmt => []
  | exprStmt v => [v]
  | call f args => f :: args
  | attributeN v _ => [v]
  | nameN _ => []

mutual
/-- Number of nodes in a tree. -/
def sizeN : Node → Nat
  | module body => 1 + sizeL body
  | functionDef _ body => 1 + sizeL body
  | passStmt => 1
  | exprStmt v => 1 + sizeN v
  | call f args => 1 + (sizeN f + sizeL args)
  | attributeN v _ => 1 + sizeN v
  | nameN _ => 1

/-- Number of nodes in a forest. -/
def sizeL : List Node → Nat
  | [] => 0
  | n :: ns => sizeN n + sizeL ns
end

mutual
/-- Depth-first, left-to-right (document-order / pre-order) enumeration of
the nodes of a tree. -/
def preorderN : Node → List Node
  | module body => module body :: preorderL body
  | functionDef f body => functionDef f body :: preorderL body
  | passStmt => [passStmt]
  | exprStmt v => exprStmt v :: preorderN v
  | call f args => call f args :: (preorderN f ++ preorderL args)
  | attributeN v a => attributeN v a :: preorderN v
  | nameN i => [nameN i]

/-- Pre-order enumeration of a forest. -/
def preorderL : List Node → List Node
  | [] => []
  | n :: ns => preorderN n ++ preorderL ns
end

/-- One breadth-first level step, with fuel.  `ast.walk` pops nodes from
the left of a deque and extends the deque on the right with each node's
children, which yields exactly the level-order enumeration: the pending
nodes, then the walk of all their children concatenated in order. -/
def walkListF : Nat → List Node → List Node
  | 0, _ => []
  | _ + 1, [] => []
  | f + 1, n :: ns => (n :: ns) ++ walkListF f ((n :: ns).flatMap children)

/-- `ast.walk tree`: breadth-first enumeration starting at the root. -/
def walk (t : Node) : List Node := walkListF (sizeN t) [t]

end Node

open Node

/-- The test the analyzer loop applies to each walked node:
`isinstance(node, ast.FunctionDef) and not node.body`, and the message it
appends, `f"Empty function found: {node.name}"`. -/
def findingOf : Node → Option String
  | .functionDef f [] => some ("Empty function found: " ++ f)
  | _ => none

/-- The analyzer's `issues` list: the loop
`for node in ast.walk(tree): if ...: issues.append(...)`. -/
def findings (t : Node) : List String :=
  (walk t).foldl (fun acc n =>
    match findingOf n with
    | some m => acc ++ [m]
    | none => acc) []

/-- The body of `Analyzer.analyze_code` after a successful parse:
`"\n".join(issues) if issues else "No issues found"`. -/
def analyzeTree (t : Node) : String :=
  if findings t = [] then "No issues found" else String.intercalate "\n" (findings t)

/-- The replacement node `RefactorEngine.refactor_code` builds for a node:
when the node is a `Call` whose `func` is a `Name` with id `print`, a new
`Call` of `Attribute(Name('logging'), 'info')` on the same argument list. -/
def buildNew : Node → Option Node
  | .call (.nameN i) args =>
      if i = "print" then some (.call (.attributeN (.nameN "logging") "info") args) else none
  | _ => none

/-- The loop of `RefactorEngine.refactor_code`: for every walked node it
may build a replacement (`buildNew`), copy locations onto it and visit it
with a fresh `NodeTransformer`, but the replacement is never assigned into
the tree, so the tree that reaches `ast.unparse` is the parsed tree. -/
def refactorLoop (t : Node) : Node :=
  ((walk t).map buildNew).foldl (fun acc _ => acc) t

/-! ## `ast.unparse` on the fragment -/

/-- Characters allowed inside a Python identifier. -/
def isIdChar (c : Char) : Bool := c.isAlphanum || c = '_'

/-- Characters allowed to start a Python identifier. -/
def isIdStart (c : Char) : Bool := c.isAlpha || c = '_'

/-- The keywords of the fragment; they may not be used as identifiers. -/
def keyword (s : String) : Bool := s = "def" || s = "pass"

mutual
/-- Text of an expression, as `ast.unparse` renders the fragment:
identifiers verbatim, `value.attr` for attributes, `func(a, b)` for calls. -/
def exprChars : Node → List Char
  | .nameN i => i.data
  | .attributeN v a => exprChars v ++ '.' :: a.data
  | .call f args => exprChars f ++ '(' :: (argsChars args ++ [')'])
  | _ => []

/-- Argument lists are rendered separated by `", "`. -/
def argsChars : List Node → List Char
  | [] => []
  | [e] => exprChars e
  | e :: es => exprChars e ++ ',' :: ' ' :: argsChars es
end

/-- `ast.unparse` indents blocks by four spaces per level. -/
def indentChars (i : Nat) : List Char := List.replicate (4 * i) ' '

mutual
/-- The lines `ast.unparse` produces for one statement at nesting depth
`i`: `pass`, the expression text, or a `def f():` header followed by the
indented body block. -/
def stmtLines (i : Nat) : Node → List (List Char)
  | .passStmt => [indentChars i ++ "pass".data]
  | .exprStmt v => [indentChars i ++ exprChars v]
  | .functionDef f body =>
      (indentChars i ++ ("def ".data ++ (f.data ++ "():".data))) :: bodyLines (i + 1) body
  | _ => []

/-- Lines of a statement block. -/
def bodyLines (i : Nat) : List Node → List (List Char)
  | [] => []
  | s :: ss => stmtLines i s ++ bodyLines i ss
end

/-- Join lines with newline separators (no trailing newline, as
`ast.unparse`). -/
def joinLines : List (List Char) → List Char
  | [] => []
  | [l] => l
  | l :: ls => l ++ '\n' :: joinLines ls

/-- `ast.unparse` of a module of the fragment. -/
def unparseChars : Node → List Char
  | .module body => joinLines (bodyLines 0 body)
  | _ => []

/-- `ast.unparse`, producing a `String`. -/
def unparse (t : Node) : String := String.mk (unparseChars t)

/-! ## `ast.parse` on the fragment -/

/-- Read one identifier: a maximal run of identifier characters starting
with an identifier-start character, not a keyword. -/
def parseIdent : List Char → Option (String × List Char)
  | [] => none
  | c :: cs =>
    if isIdStart c then
      let s := String.mk (c :: cs.takeWhile isIdChar)
      if keyword s then none else some (s, cs.dropWhile isIdChar)
    else none

mutual
/-- Parse the trailers of an expression: a chain of `.attr` accesses and
`(args)` calls after a primary, folded left onto the accumulator `e`. -/
def parseTrail : Nat → Node → List Char → Option (Node × List Char)
  | 0, _, _ => none
  | _ + 1, e, [] => some (e, [])
  | f + 1, e, c :: cs =>
    if c = '.' then
      match parseIdent cs with
      | some (a, cs') => parseTrail f (.attributeN e a) cs'
      | none => none
    else if c = '(' then
      match cs with
      | [] => none
      | c2 :: cs2 =>
        if c2 = ')' then parseTrail f (.call e []) cs2
        else
          match parseArgsF f (c2 :: cs2) with
          | some (args, c3 :: cs3) =>
            if c3 = ')' then parseTrail f (.call e args) cs3 else none
          | _ => none
    else some (e, c :: cs)

/-- Parse a nonempty argument list: expressions separated by `", "`. -/
def parseArgsF : Nat → List Char → Option (List Node × List Char)
  | 0, _ => none
  | f + 1, cs =>
    match parseIdent cs with
    | some (i, cs') =>
      match parseTrail f (.nameN i) cs' with
      | some (e, c :: cs'') =>
        if c = ',' then
          match cs'' with
          | c2 :: cs3 =>
            if c2 = ' ' then
              match parseArgsF f cs3 with
              | some (es, cs4) => some (e :: es, cs4)
              | none => none
            else none
          | [] => none
        else some ([e], c :: cs'')
      | some (e, []) => some ([e], [])
      | none => none
    | none => none
end

/-- Parse a complete expression occupying a whole line. -/
def parseExprC (cs : List Char) : Option Node :=
  match parseIdent cs with
  | some (i, cs') =>
    match parseTrail (cs.length + 1) (.nameN i) cs' with
    | some (e, []) => some e
    | _ => none
  | none => none

/-- Number of leading spaces of a line. -/
def indentOf (l : List Char) : Nat := (l.takeWhile (· == ' ')).length

/-- After `def `, a header line must read `<ident>():` to its end. -/
def parseHeaderName (content : List Char) : Option String :=
  match parseIdent content with
  | some (f, rest) => if rest = ['(', ')', ':'] then some f else none
  | none => none

/-- Parse a run of statements at nesting depth `i` from a list of lines;
stops (returning the remaining lines) at the first line whose indentation
is not `4 * i`.  A line is classified by its first token (the maximal
identifier run): `pass` alone, a `def` header followed by an indented
block, or an expression filling the line.  A `def` block with an empty
body is a syntax error, as in Python, so a parsed `FunctionDef` always has
a nonempty body. -/
def parseStmtsF : Nat → Nat → List (List Char) → Option (List Node × List (List Char))
  | 0, _, _ => none
  | _ + 1, _, [] => some ([], [])
  | f + 1, i, l :: ls =>
    if indentOf l = 4 * i then
      let content := l.dropWhile (· == ' ')
      let tok := content.takeWhile isIdChar
      if tok = "pass".data ∧ content = "pass".data then
        match parseStmtsF f i ls with
        | some (ss, r) => some (.passStmt :: ss, r)
        | none => none
      else if tok = "def".data then
        match content.dropWhile isIdChar with
        | [] => none
        | c :: afterKw =>
          if c = ' ' then
            match parseHeaderName afterKw with
            | some fn =>
              match parseStmtsF f (i + 1) ls with
              | some ([], _) => none
              | some (body, r) =>
                match parseStmtsF f i r with
                | some (ss, r') => some (.functionDef fn body :: ss, r')
                | none => none
              | none => none
            | none => none
          else none
      else
        match parseExprC content with
        | some e =>
          match parseStmtsF f i ls with
          | some (ss, r) => some (.exprStmt e :: ss, r)
          | none => none
        | none => none
    else some ([], l :: ls)

/-- Split a character sequence into lines at newline characters. -/
def splitLines : List Char → List (List Char)
  | [] => [[]]
  | c :: cs =>
    if c = '\n' then [] :: splitLines cs
    else
      match splitLines cs with
      | [] => [[c]]
      | l :: ls => (c :: l) :: ls

/-- `ast.parse` on the fragment: the empty source is the empty module;
otherwise every line must be consumed as a top-level statement run. -/
def parseSrc (s : String) : Except String Node :=
  match s.data with
  | [] => .ok (.module [])
  | c :: cs =>
    let lines := splitLines (c :: cs)
    match parseStmtsF (lines.length + 1) 0 lines with
    | some (ss, []) => .ok (.module ss)
    | _ => .error "invalid syntax"

/-! ## The two service entry points -/

/-- `Analyzer.analyze_code`: parse, collect findings over `ast.walk`, join
with newlines or report `"No issues found"`; any failure is caught and
returned as `"Analysis error: <message>"`. -/
def analyze_code (s : String) : String :=
  match parseSrc s with
  | .ok t => analyzeTree t
  | .error m => "Analysis error: " ++ m

/-- `RefactorEngine.refactor_code`: parse, run the replacement-building
loop (which never attaches its nodes), regenerate text with `ast.unparse`;
any failure is caught and returned as `"Refactoring error: <message>"`. -/
def refactor_code (s : String) : String :=
  match parseSrc s with
  | .ok t => unparse (refactorLoop t)
  | .error m => "Refactoring error: " ++ m

/-- Modelled from the claim's words, for the refinement comparison: the
result of parsing the input and regenerating source text from the
unmodified parsed tree, with failures reported as the same error string. -/
def refactorSpec (s : String) : String :=
  match parseSrc s with
  | .ok t => unparse t
  | .error m => "Refactoring error: " ++ m

/-! ## Well-formedness: the trees `ast.parse` can produce -/

/-- A legal identifier of the fragment: nonempty, made of identifier
characters, starting with an identifier-start character, not a keyword. -/
def validIdent (s : String) : Prop :=
  (∃ c cs, s.data = c :: cs ∧ isIdStart c = true) ∧
    (∀ c ∈ s.data, isIdChar c = true) ∧ keyword s = false

/-- Well-formed expressions: identifiers, attribute accesses and calls
with well-formed parts. -/
inductive WFe : Node → Prop
  | nameW {i} : validIdent i → WFe (.nameN i)
  | attrW {v a} : WFe v → validIdent a → WFe (.attributeN v a)
  | callW {f args} : WFe f → (∀ e ∈ args, WFe e) → WFe (.call f args)

/-- Well-formed statements: `pass`, expression statements, and function
definitions with a nonempty well-formed body — `ast.parse` produces no
`FunctionDef` with an empty body. -/
inductive WFs : Node → Prop
  | passW : WFs .passStmt
  | exprW {v} : WFe v → WFs (.exprStmt v)
  | defW {f body} : validIdent f → body ≠ [] → (∀ s ∈ body, WFs s) →
      WFs (.functionDef f body)

/-- Well-formed parse results: a module of well-formed statements. -/
def WFm (t : Node) : Prop := ∃ body, t = .module body ∧ ∀ s ∈ body, WFs s

/-- A node that can occur anywhere inside a well-formed module. -/
def WFany (n : Node) : Prop := WFm n ∨ WFs n ∨ WFe n

/-- The trailers of an expression of the fragment: each is an `.attr`
access or a call argument list, applied left-to-right to a base name. -/
inductive Trail where
  | attrT (a : String)
  | callT (args : List Node)

/-- Fold a trailer list onto a base expression. -/
def applyTrails : Node → List Trail → Node
  | e, [] => e
  | e, .attrT a :: ts => applyTrails (.attributeN e a) ts
  | e, .callT args :: ts => applyTrails (.call e args) ts

/-- The characters a trailer list contributes after the base identifier. -/
def trailChars : List Trail → List Char
  | [] => []
  | .attrT a :: ts => '.' :: (a.data ++ trailChars ts)
  | .callT args :: ts => '(' :: (argsChars args ++ ')' :: trailChars ts)

/-- Base identifier of an expression's trailer spine. -/
def baseOf : Node → String
  | .nameN i => i
  | .attributeN v _ => baseOf v
  | .call f _ => baseOf f
  | _ => ""

/-- Trailer spine of an expression. -/
def trailsOf : Node → List Trail
  | .nameN _ => []
  | .attributeN v a => trailsOf v ++ [.attrT a]
  | .call f args => trailsOf f ++ [.callT args]
  | _ => []

/-- Well-formedness of one trailer. -/
def WFt : Trail → Prop
  | .attrT a => validIdent a
  | .callT args => ∀ e ∈ args, WFe e

/-- A character sequence no identifier run can continue into. -/
def notIdHead (cs : List Char) : Prop :=
  ∀ c, cs.head? = some c → isIdChar c = false

/-- A character sequence at which the trailer loop must stop: it starts
with no identifier character, no `.` and no `(`. -/
def stopC (cs : List Char) : Prop :=
  ∀ c, cs.head? = some c → isIdChar c = false ∧ c ≠ '.' ∧ c ≠ '('

/-- A line list that cannot continue a block at nesting depth `i`. -/
def stopB (i : Nat) (r : List (List Char)) : Prop :=
  ∀ l, r.head? = some l → indentOf l < 4 * i

/-- The test `RefactorEngine`'s loop applies to each node:
`isinstance(node, ast.Call) and isinstance(node.func, ast.Name) and
node.func.id == 'print'`. -/
def isPrintCall : Node → Bool
  | .call (.nameN i) _ => i = "print"
  | _ => false

/-! ## Basic lemmas -/

theorem foldl_const {α β : Type} (l : List β) (x : α) :
    l.foldl (fun a _ => a) x = x := by
  induction l generalizing x with
  | nil => rfl
  | cons b l ih => simp only [List.foldl_cons]; exact ih x

/-- The refactoring loop never changes the tree: the built replacement
nodes are discarded. -/
theorem refactorLoop_eq (t : Node) : refactorLoop t = t :=
  foldl_const _ _

theorem findings_foldl (l : List Node) (acc : List String) :
    (l.foldl (fun acc n =>
      match findingOf n with
      | some m => acc ++ [m]
      | none => acc) acc) = acc ++ l.filterMap findingOf := by
  induction l generalizing acc with
  | nil => simp
  | cons n l ih =>
    cases h : findingOf n <;> simp [List.filterMap_cons, h, ih]

/-- The analyzer's accumulated `issues` list is the filter-map of the
finding rule over the walk. -/
theorem findings_eq (t : Node) : findings t = (walk t).filterMap findingOf := by
  simpa using findings_foldl (walk t) []

theorem walkListF_nil (f : Nat) : walkListF f [] = [] := by
  cases f <;> rfl

theorem sizeN_pos (n : Node) : 0 < sizeN n := by
  cases n <;> simp [sizeN]

theorem sizeL_append (a b : List Node) : sizeL (a ++ b) = sizeL a + sizeL b := by
  induction a with
  | nil => simp [sizeL]
  | cons n a ih => simp [sizeL, ih]; omega

theorem sizeL_children (n : Node) : sizeL (children n) + 1 = sizeN n := by
  cases n <;> simp [children, sizeN, sizeL, sizeL_append] <;> omega

theorem sizeL_flatMap_children (ns : List Node) :
    sizeL (ns.flatMap children) + ns.length = sizeL ns := by
  induction ns with
  | nil => rfl
  | cons n ns ih =>
    simp only [List.flatMap_cons, sizeL_append, sizeL, List.length_cons]
    have := sizeL_children n
    omega

/-! ## Breadth-first walk versus pre-order -/

theorem preorderL_eq (ns : List Node) : preorderL ns = ns.flatMap preorderN := by
  induction ns with
  | nil => rfl
  | cons n ns ih => simp [preorderL, ih]

theorem preorderN_unfold (n : Node) :
    preorderN n = n :: (children n).flatMap preorderN := by
  cases n <;> simp [preorderN, children, preorderL_eq]

theorem flatMap_preorder_perm (ns : List Node) :
    (ns.flatMap preorderN).Perm (ns ++ (ns.flatMap children).flatMap preorderN) := by
  induction ns with
  | nil => simp
  | cons n ns ih =>
    simp only [List.flatMap_cons, List.cons_append, List.flatMap_append, List.append_assoc]
    rw [preorderN_unfold n]
    simp only [List.cons_append]
    refine List.Perm.cons n ?_
    have h1 := List.Perm.append_left ((children n).flatMap preorderN) ih
    have h2 : (((children n).flatMap preorderN) ++
          (ns ++ (ns.flatMap children).flatMap preorderN)).Perm
        (ns ++ ((children n).flatMap preorderN ++
          (ns.flatMap children).flatMap preorderN)) := by
      simp only [← List.append_assoc]
      exact List.perm_append_comm.append_right _
    exact h1.trans h2

theorem walkListF_perm (f : Nat) : ∀ ns, sizeL ns ≤ f →
    (walkListF f ns).Perm (ns.flatMap preorderN) := by
  induction f with
  | zero =>
    intro ns h
    cases ns with
    | nil => simp [walkListF]
    | cons n ns => have := sizeN_pos n; simp [sizeL] at h; omega
  | succ f ih =>
    intro ns h
    cases ns with
    | nil => simp [walkListF]
    | cons n ns =>
      show ((n :: ns) ++ walkListF f ((n :: ns).flatMap children)).Perm _
      have hsz : sizeL ((n :: ns).flatMap children) ≤ f := by
        have := sizeL_flatMap_children (n :: ns)
        simp only [List.length_cons] at this
        omega
      exact (List.Perm.append_left (n :: ns) (ih _ hsz)).trans
        (flatMap_preorder_perm (n :: ns)).symm

/-- `ast.walk` enumerates exactly the nodes of the tree (it is a
permutation of the pre-order enumeration). -/
theorem walk_perm (t : Node) : (walk t).Perm (preorderN t) := by
  have h : sizeL [t] ≤ sizeN t := by simp [sizeL]
  have := walkListF_perm (sizeN t) [t] h
  simpa [walk] using this

/-! ## Analyzer lemmas -/

theorem analyzeTree_of_no_findings (t : Node)
    (h : ∀ n ∈ walk t, findingOf n = none) : analyzeTree t = "No issues found" := by
  have hf : findings t = [] := by
    rw [findings_eq]
    exact List.filterMap_eq_nil_iff.mpr h
  simp [analyzeTree, hf]

/-- The walk of a module whose statements are all childless starts at the
module node and then lists the statements in order. -/
theorem walk_module_flat (body : List Node) (hne : body ≠ [])
    (hch : body.flatMap children = []) :
    walk (.module body) = .module body :: body := by
  have h1 : sizeN (.module body) = sizeL body + 1 := by
    simp [sizeN]; omega
  have step1 : walk (.module body) =
      [Node.module body] ++ walkListF (sizeL body) ([Node.module body].flatMap children) := by
    rw [walk, h1]; rfl
  have h2 : [Node.module body].flatMap children = body := by
    simp [children]
  rw [step1, h2]
  obtain ⟨b, bs, rfl⟩ : ∃ b bs, body = b :: bs := by
    cases body with
    | nil => exact absurd rfl hne
    | cons b bs => exact ⟨b, bs, rfl⟩
  obtain ⟨m, hm⟩ : ∃ m, sizeL (b :: bs) = m + 1 := by
    have := sizeN_pos b
    simp only [sizeL]
    exact ⟨sizeN b + sizeL bs - 1, by omega⟩
  rw [hm]
  have step2 : walkListF (m + 1) (b :: bs) =
      (b :: bs) ++ walkListF m ((b :: bs).flatMap children) := rfl
  rw [step2, hch, walkListF_nil]
  simp

theorem filterMap_empty_defs (names : List String) :
    List.filterMap findingOf (names.map fun n => Node.functionDef n []) =
      names.map fun n => "Empty function found: " ++ n := by
  induction names with
  | nil => rfl
  | cons n names ih => simp [List.filterMap_cons, findingOf, ih]

/-! ## Claim theorems (with witnesses where the statement has hypotheses) -/

/-- **C1** (evidence for the defect): on the source `print(x, y)`, which
parses to exactly one call whose callee is the bare name `print`,
`refactor_code` returns the input text unchanged — the call site still
reads `print(x, y)`, not `logging.info(x, y)`, because the replacement
node built in the loop is never attached to the tree. -/
theorem refactor_print_call_unchanged :
    parseSrc "print(x, y)" =
      .ok (.module [.exprStmt (.call (.nameN "print") [.nameN "x", .nameN "y"])]) ∧
    refactor_code "print(x, y)" = "print(x, y)" :=
  ⟨rfl, rfl⟩

/-- **C2**: for every syntactically valid source whose tree triggers the
empty-function rule on no walked node (and there are no other rules),
`analyze_code` returns exactly `"No issues found"`. -/
theorem analyze_no_matches_no_issues (s : String) (t : Node)
    (hp : parseSrc s = .ok t) (h : ∀ n ∈ walk t, findingOf n = none) :
    analyze_code s = "No issues found" := by
  simp [analyze_code, hp, analyzeTree_of_no_findings t h]

/-- Witness for `analyze_no_matches_no_issues` at the source `"pass"`. -/
theorem analyze_no_matches_no_issues_witness :
    parseSrc "pass" = .ok (.module [.passStmt]) ∧
    analyze_code "pass" = "No issues found" :=
  ⟨rfl, analyze_no_matches_no_issues "pass" (.module [.passStmt]) rfl (by decide)⟩

/-- **C3 (counterexample)**: on a tree holding an empty-bodied function
`f2` nested inside `f1` and a later top-level empty-bodied `f3`, the
analysis does not return the findings in declaration order (`f2` before
`f3`): `ast.walk` is breadth-first, so `f3` is reported before `f2`. -/
theorem analyze_declaration_order_cex :
    analyzeTree (.module [.functionDef "f1" [.functionDef "f2" []],
        .functionDef "f3" []]) ≠
      "Empty function found: f2\nEmpty function found: f3" := by
  decide

/-- **C3 (amended)**: the findings appear in the breadth-first order of
`ast.walk`, which coincides with declaration order when the empty-bodied
functions are all at the top level of the module: for top-level functions
`f1..fn` with empty bodies the analysis returns one line per function, in
declaration order, each exactly `"Empty function found: <name>"`. -/
theorem analyze_empty_functions_walk_order (names : List String) (h : names ≠ []) :
    analyzeTree (.module (names.map fun n => .functionDef n [])) =
      String.intercalate "\n" (names.map fun n => "Empty function found: " ++ n) := by
  have hne : (names.map fun n => Node.functionDef n []) ≠ [] := by
    simpa using h
  have hch : (names.map fun n => Node.functionDef n []).flatMap children = [] := by
    induction names with
    | nil => rfl
    | cons n names ih => simp [children, ih]
  have hwalk := walk_module_flat _ hne hch
  have hfind : findings (.module (names.map fun n => Node.functionDef n [])) =
      names.map fun n => "Empty function found: " ++ n := by
    rw [findings_eq, hwalk, List.filterMap_cons]
    have : findingOf (.module (names.map fun n => Node.functionDef n [])) = none := rfl
    rw [this, filterMap_empty_defs]
  have hne2 : findings (.module (names.map fun n => Node.functionDef n [])) ≠ [] := by
    rw [hfind]; simpa using h
  rw [analyzeTree, if_neg hne2, hfind]

/-- Witness for `analyze_empty_functions_walk_order` at two functions. -/
theorem analyze_empty_functions_walk_order_witness :
    (["f1", "f2"] : List String) ≠ [] ∧
    analyzeTree (.module (["f1", "f2"].map fun n => .functionDef n [])) =
      String.intercalate "\n" (["f1", "f2"].map fun n => "Empty function found: " ++ n) :=
  ⟨by decide, analyze_empty_functions_walk_order ["f1", "f2"] (by decide)⟩

/-- **C4**: on every syntactically invalid source, `analyze_code` returns
the parse failure as a string prefixed with `"Analysis error:"`; being a
total function of the input, it raises nothing. -/
theorem analyze_invalid_error_string (s m : String)
    (h : parseSrc s = .error m) : analyze_code s = "Analysis error: " ++ m := by
  simp [analyze_code, h]

/-- Witness for `analyze_invalid_error_string` at the source `"def ("`. -/
theorem analyze_invalid_error_string_witness :
    parseSrc "def (" = .error "invalid syntax" ∧
    analyze_code "def (" = "Analysis error: " ++ "invalid syntax" :=
  ⟨rfl, analyze_invalid_error_string "def (" "invalid syntax" rfl⟩

/-- **C5**: `refactor_code` is a total function that either returns the
regenerated text of a successful parse or, on any internal failure,
returns the single string `"Refactoring error: <message>"` — no failure
propagates to the caller. -/
theorem refactor_total_behavior (s : String) :
    (∃ t, parseSrc s = .ok t ∧ refactor_code s = unparse (refactorLoop t)) ∨
    (∃ m, parseSrc s = .error m ∧
      refactor_code s = "Refactoring error: " ++ m) := by
  cases h : parseSrc s with
  | ok t => exact .inl ⟨t, rfl, by simp [refactor_code, h]⟩
  | error m => exact .inr ⟨m, rfl, by simp [refactor_code, h]⟩

/-- **C8 (counterexample)**: for the source
`def f():\n    g()\nh()` the analyzer's traversal (`ast.walk`) is not the
document-order (pre-order) enumeration: `walk` is breadth-first and
visits the statement `h()` before the nested body of `f`. -/
theorem walk_not_preorder_cex :
    walk (.module [.functionDef "f" [.exprStmt (.call (.nameN "g") [])],
        .exprStmt (.call (.nameN "h") [])]) ≠
      preorderN (.module [.functionDef "f" [.exprStmt (.call (.nameN "g") [])],
        .exprStmt (.call (.nameN "h") [])]) := by
  intro hEq
  exact absurd (congrArg (List.map sizeN) hEq) (by decide)

/-- **C8 (amended)**: the analyzer's traversal visits every node of the
tree exactly once — `ast.walk` is a permutation of the pre-order
enumeration — but in breadth-first order, not document order; the emitted
findings follow that breadth-first visitation order. -/
theorem analyze_walk_every_node_once (t : Node) :
    (walk t).Perm (preorderN t) ∧ findings t = (walk t).filterMap findingOf :=
  ⟨walk_perm t, findings_eq t⟩

/-- **C10**: `refactor_code` coincides with parse-then-unparse of the
unmodified tree on every input — the replacement nodes the loop builds
are never attached before regeneration. -/
theorem refactor_code_eq_refactorSpec (s : String) :
    refactor_code s = refactorSpec s := by
  cases h : parseSrc s <;>
    simp [refactor_code, refactorSpec, h, refactorLoop_eq]

/-! ## Character classes and identifier lemmas -/

theorem isIdStart_isIdChar {c : Char} (h : isIdStart c = true) : isIdChar c = true := by
  unfold isIdStart at h
  unfold isIdChar
  rcases Bool.or_eq_true_iff.mp h with h' | h'
  · simp [Char.isAlphanum, h']
  · simp [h']

theorem takeWhile_append_all {p : Char → Bool} (l : List Char) {rest : List Char}
    (hl : ∀ c ∈ l, p c = true) (hr : ∀ c, rest.head? = some c → p c = false) :
    (l ++ rest).takeWhile p = l := by
  induction l with
  | nil =>
    cases rest with
    | nil => rfl
    | cons c cs => simp [List.takeWhile_cons, hr c rfl]
  | cons a l ih =>
    have ha : p a = true := hl a (by simp)
    simp only [List.cons_append, List.takeWhile_cons, ha, if_true]
    rw [ih (fun c hc => hl c (by simp [hc]))]

theorem dropWhile_append_all {p : Char → Bool} (l : List Char) {rest : List Char}
    (hl : ∀ c ∈ l, p c = true) (hr : ∀ c, rest.head? = some c → p c = false) :
    (l ++ rest).dropWhile p = rest := by
  induction l with
  | nil =>
    cases rest with
    | nil => rfl
    | cons c cs => simp [List.dropWhile_cons, hr c rfl]
  | cons a l ih =>
    have ha : p a = true := hl a (by simp)
    simp only [List.cons_append, List.dropWhile_cons, ha, if_true]
    exact ih (fun c hc => hl c (by simp [hc]))

theorem string_mk_data (s : String) : String.mk s.data = s := rfl

/-- Reading an identifier off the front of `s.data ++ rest` returns `s`
whenever `s` is a valid identifier and `rest` cannot extend it. -/
theorem parseIdent_spec {s : String} {rest : List Char} (hv : validIdent s)
    (hr : ∀ c, rest.head? = some c → isIdChar c = false) :
    parseIdent (s.data ++ rest) = some (s, rest) := by
  obtain ⟨⟨c, cs, hd, hstart⟩, hall, hkw⟩ := hv
  have hcs : ∀ x ∈ cs, isIdChar x = true := fun x hx => hall x (by rw [hd]; simp [hx])
  have hmk : String.mk (c :: cs) = s := by rw [← hd]
  rw [hd]
  show parseIdent (c :: (cs ++ rest)) = some (s, rest)
  simp only [parseIdent, hstart, if_true]
  rw [takeWhile_append_all cs hcs hr, dropWhile_append_all cs hcs hr, hmk, hkw]
  simp

/-! ## The trailer spine of a well-formed expression -/

theorem applyTrails_append (e : Node) (ts us : List Trail) :
    applyTrails e (ts ++ us) = applyTrails (applyTrails e ts) us := by
  induction ts generalizing e with
  | nil => rfl
  | cons t ts ih => cases t <;> simp [applyTrails, ih]

theorem trailChars_append (ts us : List Trail) :
    trailChars (ts ++ us) = trailChars ts ++ trailChars us := by
  induction ts with
  | nil => rfl
  | cons t ts ih => cases t <;> simp [trailChars, ih]

theorem spine_apply {e : Node} (h : WFe e) :
    applyTrails (.nameN (baseOf e)) (trailsOf e) = e := by
  induction h with
  | nameW hv => rfl
  | attrW hv hva ih => simp [trailsOf, baseOf, applyTrails_append, ih, applyTrails]
  | callW hf ha ihf iha => simp [trailsOf, baseOf, applyTrails_append, ihf, applyTrails]

theorem exprChars_spine {e : Node} (h : WFe e) :
    exprChars e = (baseOf e).data ++ trailChars (trailsOf e) := by
  induction h with
  | nameW hv => simp [exprChars, baseOf, trailsOf, trailChars]
  | attrW hv hva ih =>
    simp [exprChars, baseOf, trailsOf, trailChars_append, trailChars, ih]
  | callW hf ha ihf iha =>
    simp [exprChars, baseOf, trailsOf, trailChars_append, trailChars, ihf]

theorem base_valid {e : Node} (h : WFe e) : validIdent (baseOf e) := by
  induction h with
  | nameW hv => exact hv
  | attrW hv hva ih => exact ih
  | callW hf ha ihf iha => exact ihf

theorem trails_WF {e : Node} (h : WFe e) : ∀ t ∈ trailsOf e, WFt t := by
  induction h with
  | nameW hv => intro t ht; simp [trailsOf] at ht
  | attrW hv hva ih =>
    intro t ht
    simp only [trailsOf, List.mem_append, List.mem_singleton] at ht
    rcases ht with ht | rfl
    · exact ih t ht
    · exact hva
  | callW hf ha ihf iha =>
    intro t ht
    simp only [trailsOf, List.mem_append, List.mem_singleton] at ht
    rcases ht with ht | rfl
    · exact ihf t ht
    · exact ha

theorem exprChars_head {e : Node} (h : WFe e) :
    ∃ c cs, exprChars e = c :: cs ∧ isIdStart c = true := by
  obtain ⟨⟨c, cs0, hd, hstart⟩, -, -⟩ := base_valid h
  refine ⟨c, cs0 ++ trailChars (trailsOf e), ?_, hstart⟩
  rw [exprChars_spine h, hd]
  rfl

/-! ## Boundary facts -/

theorem stopC_nil : stopC [] := fun c h => by simp at h

theorem stopC_cons {c : Char} {X : List Char} (h1 : isIdChar c = false)
    (h2 : c ≠ '.') (h3 : c ≠ '(') : stopC (c :: X) := by
  intro d hd
  simp only [List.head?_cons, Option.some.injEq] at hd
  subst hd
  exact ⟨h1, h2, h3⟩

theorem stopC_rparen (X : List Char) : stopC (')' :: X) :=
  stopC_cons (by decide) (by decide) (by decide)

theorem stopC_comma (X : List Char) : stopC (',' :: X) :=
  stopC_cons (by decide) (by decide) (by decide)

theorem trailChars_notIdHead {ts : List Trail} {rest : List Char}
    (hr : stopC rest) : notIdHead (trailChars ts ++ rest) := by
  cases ts with
  | nil => intro c hc; exact (hr c hc).1
  | cons t ts =>
    cases t with
    | attrT a =>
      intro c hc
      simp only [trailChars, List.cons_append, List.head?_cons,
        Option.some.injEq] at hc
      subst hc
      decide
    | callT args =>
      intro c hc
      simp only [trailChars, List.cons_append, List.head?_cons,
        Option.some.injEq] at hc
      subst hc
      decide

theorem validIdent_len {s : String} (h : validIdent s) : 1 ≤ s.data.length := by
  obtain ⟨⟨c, cs, hd, -⟩, -, -⟩ := h
  rw [hd]
  simp

theorem exprChars_len {e : Node} (h : WFe e) :
    (exprChars e).length =
      (baseOf e).data.length + (trailChars (trailsOf e)).length := by
  rw [exprChars_spine h]
  simp

/-! ## Round trip for expressions -/

theorem trail_args_round (f : Nat) :
    (∀ ts (e : Node) rest, (∀ t ∈ ts, WFt t) → (trailChars ts).length < f →
      stopC rest →
      parseTrail f e (trailChars ts ++ rest) = some (applyTrails e ts, rest)) ∧
    (∀ args rest, args ≠ [] → (∀ a ∈ args, WFe a) →
      (argsChars args).length < f → (∃ X, rest = ')' :: X) →
      parseArgsF f (argsChars args ++ rest) = some (args, rest)) := by
  induction f with
  | zero =>
    constructor
    · intro ts e rest _ hlen _; omega
    · intro args rest _ _ hlen _; omega
  | succ f ih =>
    obtain ⟨ihT, ihA⟩ := ih
    constructor
    · intro ts e rest hWF hlen hstop
      cases ts with
      | nil =>
        simp only [trailChars, List.nil_append, applyTrails]
        cases rest with
        | nil => rfl
        | cons c X =>
          obtain ⟨h1, h2, h3⟩ := hstop c rfl
          simp only [parseTrail, if_neg h2, if_neg h3]
      | cons t ts =>
        cases t with
        | attrT a =>
          have hva : validIdent a := hWF (.attrT a) (by simp)
          have hWF' : ∀ t ∈ ts, WFt t := fun t ht => hWF t (by simp [ht])
          have hlen' : (trailChars ts).length < f := by
            have h1 := validIdent_len hva
            simp only [trailChars, List.length_cons, List.length_append] at hlen
            omega
          show parseTrail (f + 1) e
              (('.' :: (a.data ++ trailChars ts)) ++ rest) = _
          simp only [List.cons_append, List.append_assoc]
          simp only [parseTrail, if_pos rfl]
          rw [parseIdent_spec hva (trailChars_notIdHead hstop)]
          exact ihT ts (.attributeN e a) rest hWF' hlen' hstop
        | callT args =>
          have hWFt : ∀ a ∈ args, WFe a := hWF (.callT args) (by simp)
          have hWF' : ∀ t ∈ ts, WFt t := fun t ht => hWF t (by simp [ht])
          show parseTrail (f + 1) e
              (('(' :: (argsChars args ++ ')' :: trailChars ts)) ++ rest) = _
          simp only [List.cons_append, List.append_assoc]
          cases args with
          | nil =>
            simp only [argsChars, List.nil_append]
            have hlen' : (trailChars ts).length < f := by
              simp only [trailChars, argsChars, List.length_cons,
                List.length_append, List.nil_append] at hlen
              omega
            simp only [parseTrail, if_neg (by decide : ¬('(' : Char) = '.'),
              if_pos rfl, if_pos rfl]
            exact ihT ts (.call e []) rest hWF' hlen' hstop
          | cons a as =>
            obtain ⟨c0, cs0, hh, hstart⟩ := exprChars_head (hWFt a (by simp))
            have hc0ne : ¬c0 = ')' := by
              intro h
              rw [h] at hstart
              exact absurd hstart (by decide)
            have hL : ∃ L, argsChars (a :: as) = c0 :: L := by
              cases as with
              | nil => exact ⟨cs0, by simp [argsChars, hh]⟩
              | cons b bs =>
                exact ⟨cs0 ++ ',' :: ' ' :: argsChars (b :: bs),
                  by simp [argsChars, hh]⟩
            obtain ⟨L, hL⟩ := hL
            have hlenA : (argsChars (a :: as)).length < f := by
              simp only [trailChars, List.length_cons, List.length_append] at hlen
              omega
            have hlen' : (trailChars ts).length < f := by
              simp only [trailChars, List.length_cons, List.length_append] at hlen
              omega
            rw [hL]
            simp only [List.cons_append]
            simp only [parseTrail, if_neg (by decide : ¬('(' : Char) = '.'),
              if_pos rfl, if_neg hc0ne]
            rw [← List.cons_append, ← hL,
              ihA (a :: as) (')' :: (trailChars ts ++ rest)) (by simp) hWFt
                hlenA ⟨_, rfl⟩]
            simp only [if_pos rfl]
            exact ihT ts (.call e (a :: as)) rest hWF' hlen' hstop
    · intro args rest hne hWF hlen hrp
      obtain ⟨X, rfl⟩ := hrp
      cases args with
      | nil => exact absurd rfl hne
      | cons a as =>
        have hWFa : WFe a := hWF a (by simp)
        have hbase := base_valid hWFa
        have htr := trails_WF hWFa
        have hblen := validIdent_len hbase
        cases as with
        | nil =>
          show parseArgsF (f + 1) (exprChars a ++ ')' :: X) = some ([a], ')' :: X)
          have hlenT : (trailChars (trailsOf a)).length < f := by
            have := exprChars_len hWFa
            simp only [argsChars] at hlen
            omega
          have hId : parseIdent (exprChars a ++ ')' :: X) =
              some (baseOf a, trailChars (trailsOf a) ++ ')' :: X) := by
            rw [exprChars_spine hWFa, List.append_assoc]
            exact parseIdent_spec hbase (trailChars_notIdHead (stopC_rparen X))
          have hT : parseTrail f (.nameN (baseOf a))
              (trailChars (trailsOf a) ++ ')' :: X) = some (a, ')' :: X) := by
            rw [ihT (trailsOf a) (.nameN (baseOf a)) (')' :: X) htr hlenT
              (stopC_rparen X), spine_apply hWFa]
          simp only [parseArgsF, hId, hT,
            if_neg (by decide : ¬(')' : Char) = ',')]
        | cons b bs =>
          show parseArgsF (f + 1)
              ((exprChars a ++ ',' :: ' ' :: argsChars (b :: bs)) ++ ')' :: X) =
            some (a :: b :: bs, ')' :: X)
          have hlenT : (trailChars (trailsOf a)).length < f := by
            have := exprChars_len hWFa
            simp only [argsChars, List.length_append, List.length_cons] at hlen
            omega
          have hlenA : (argsChars (b :: bs)).length < f := by
            have h1 : 1 ≤ (exprChars a).length := by
              have := exprChars_len hWFa
              omega
            simp only [argsChars, List.length_append, List.length_cons] at hlen
            omega
          have hId : parseIdent (exprChars a ++
                (',' :: ' ' :: (argsChars (b :: bs) ++ ')' :: X))) =
              some (baseOf a, trailChars (trailsOf a) ++
                (',' :: ' ' :: (argsChars (b :: bs) ++ ')' :: X))) := by
            rw [exprChars_spine hWFa, List.append_assoc]
            exact parseIdent_spec hbase (trailChars_notIdHead (stopC_comma _))
          have hT : parseTrail f (.nameN (baseOf a))
              (trailChars (trailsOf a) ++
                (',' :: ' ' :: (argsChars (b :: bs) ++ ')' :: X))) =
              some (a, ',' :: ' ' :: (argsChars (b :: bs) ++ ')' :: X)) := by
            rw [ihT (trailsOf a) (.nameN (baseOf a))
              (',' :: ' ' :: (argsChars (b :: bs) ++ ')' :: X)) htr hlenT
              (stopC_comma _), spine_apply hWFa]
          have hA : parseArgsF f (argsChars (b :: bs) ++ ')' :: X) =
              some (b :: bs, ')' :: X) :=
            ihA (b :: bs) (')' :: X) (by simp)
              (fun x hx => hWF x (by simp [hx])) hlenA ⟨X, rfl⟩
          simp only [List.append_assoc, List.cons_append]
          simp only [parseArgsF, hId, hT, if_pos rfl, hA]
          simp

/-- A full line holding the text of a well-formed expression parses back
to that expression. -/
theorem parseExprC_round {e : Node} (h : WFe e) :
    parseExprC (exprChars e) = some e := by
  have hbase := base_valid h
  have hb : notIdHead (trailChars (trailsOf e)) := by
    have h2 := @trailChars_notIdHead (trailsOf e) [] stopC_nil
    simpa using h2
  have hId : parseIdent (exprChars e) =
      some (baseOf e, trailChars (trailsOf e)) := by
    conv_lhs => rw [exprChars_spine h]
    exact parseIdent_spec hbase hb
  have hlenT : (trailChars (trailsOf e)).length < (exprChars e).length + 1 := by
    have := exprChars_len h
    omega
  have hT : parseTrail ((exprChars e).length + 1) (.nameN (baseOf e))
      (trailChars (trailsOf e)) = some (e, []) := by
    have h3 := (trail_args_round ((exprChars e).length + 1)).1 (trailsOf e)
      (.nameN (baseOf e)) [] (trails_WF h) hlenT stopC_nil
    rw [List.append_nil] at h3
    rw [h3, spine_apply h]
  simp only [parseExprC, hId, hT]

/-! ## Lines, indentation and statement classification -/

theorem indent_content {i : Nat} {c : Char} {r : List Char} (hc : ¬c = ' ') :
    indentOf (indentChars i ++ c :: r) = 4 * i ∧
    (indentChars i ++ c :: r).dropWhile (· == ' ') = c :: r := by
  have hall : ∀ x ∈ indentChars i, (x == ' ') = true := by
    intro x hx
    simp only [indentChars, List.mem_replicate] at hx
    simp [hx.2]
  have hb : ∀ x, (c :: r).head? = some x → (x == ' ') = false := by
    intro x hx
    simp only [List.head?_cons, Option.some.injEq] at hx
    subst hx
    simp [hc]
  constructor
  · rw [indentOf, takeWhile_append_all _ hall hb]
    simp [indentChars]
  · exact dropWhile_append_all _ hall hb

theorem tok_def_header (R : List Char) :
    ("def ".data ++ R).takeWhile isIdChar = "def".data ∧
    ("def ".data ++ R).dropWhile isIdChar = ' ' :: R := by
  have h1 : isIdChar 'd' = true := by decide
  have h2 : isIdChar 'e' = true := by decide
  have h3 : isIdChar 'f' = true := by decide
  have h4 : isIdChar ' ' = false := by decide
  show (('d' :: 'e' :: 'f' :: ' ' :: []) ++ R).takeWhile isIdChar = _ ∧ _
  constructor <;>
    simp [List.takeWhile_cons, List.dropWhile_cons, h1, h2, h3, h4]

theorem tok_expr {e : Node} (h : WFe e) :
    (exprChars e).takeWhile isIdChar = (baseOf e).data ∧
    (exprChars e).dropWhile isIdChar = trailChars (trailsOf e) := by
  obtain ⟨-, hall, -⟩ := base_valid h
  have hb : notIdHead (trailChars (trailsOf e)) := by
    have h2 := @trailChars_notIdHead (trailsOf e) [] stopC_nil
    simpa using h2
  constructor
  · conv_lhs => rw [exprChars_spine h]
    exact takeWhile_append_all _ hall hb
  · conv_lhs => rw [exprChars_spine h]
    exact dropWhile_append_all _ hall hb

theorem data_eq_imp {s t : String} (h : s.data = t.data) : s = t :=
  (string_mk_data s).symm.trans ((congrArg String.mk h).trans (string_mk_data t))

theorem validIdent_not_kw {s : String} (h : validIdent s) :
    s.data ≠ "def".data ∧ s.data ≠ "pass".data := by
  obtain ⟨-, -, hkw⟩ := h
  have hkw' : ¬s = "def" ∧ ¬s = "pass" := by
    unfold keyword at hkw
    constructor <;> intro hx <;> rw [hx] at hkw <;> simp at hkw
  exact ⟨fun hd => hkw'.1 (data_eq_imp hd), fun hd => hkw'.2 (data_eq_imp hd)⟩

theorem parseHeaderName_spec {fname : String} (h : validIdent fname) :
    parseHeaderName (fname.data ++ "():".data) = some fname := by
  have hId : parseIdent (fname.data ++ "():".data) =
      some (fname, "():".data) := by
    refine parseIdent_spec h ?_
    intro c hc
    simp only [List.head?] at hc
    cases hc
    decide
  simp only [parseHeaderName, hId, if_true]

/-! ## Lines of well-formed statements are clean -/

theorem idChar_ne_nl {c : Char} (h : isIdChar c = true) : ¬c = '\n' := by
  intro hc
  rw [hc] at h
  exact absurd h (by decide)

theorem argsChars_no_nl {args : List Node}
    (h : ∀ e ∈ args, ∀ c ∈ exprChars e, ¬c = '\n') :
    ∀ c ∈ argsChars args, ¬c = '\n' := by
  induction args with
  | nil => intro c hc; simp [argsChars] at hc
  | cons a as ih =>
    intro c hc
    cases as with
    | nil => exact h a (by simp) c hc
    | cons b bs =>
      simp only [argsChars, List.mem_append, List.mem_cons] at hc
      rcases hc with hc | hc | hc | hc
      · exact h a (by simp) c hc
      · subst hc; decide
      · subst hc; decide
      · exact ih (fun e he => h e (by simp [he])) c hc

theorem exprChars_no_nl {e : Node} (h : WFe e) :
    ∀ c ∈ exprChars e, ¬c = '\n' := by
  induction h with
  | nameW hv =>
    intro c hc
    obtain ⟨-, hall, -⟩ := hv
    exact idChar_ne_nl (hall c hc)
  | attrW hv hva ih =>
    intro c hc
    simp only [exprChars, List.mem_append, List.mem_cons] at hc
    rcases hc with hc | hc | hc
    · exact ih c hc
    · subst hc; decide
    · obtain ⟨-, hall, -⟩ := hva
      exact idChar_ne_nl (hall c hc)
  | callW hf ha ihf iha =>
    intro c hc
    simp only [exprChars, List.mem_append, List.mem_cons, List.mem_singleton,
      List.not_mem_nil, or_false] at hc
    rcases hc with hc | hc | hc | hc
    · exact ihf c hc
    · subst hc; decide
    · exact argsChars_no_nl iha c hc
    · subst hc; decide

theorem indentChars_no_nl (i : Nat) : ∀ c ∈ indentChars i, ¬c = '\n' := by
  intro c hc
  simp only [indentChars, List.mem_replicate] at hc
  rw [hc.2]
  decide

theorem bodyLines_mem {i : Nat} {ss : List Node} {l : List Char}
    (h : l ∈ bodyLines i ss) : ∃ s ∈ ss, l ∈ stmtLines i s := by
  induction ss with
  | nil => simp [bodyLines] at h
  | cons s ss ih =>
    rw [bodyLines] at h
    rcases List.mem_append.mp h with h | h
    · exact ⟨s, by simp, h⟩
    · obtain ⟨s', hs', hl⟩ := ih h
      exact ⟨s', by simp [hs'], hl⟩

theorem not_nl_indent (i : Nat) : '\n' ∉ indentChars i :=
  fun hc => indentChars_no_nl i _ hc rfl

theorem not_nl_expr {e : Node} (h : WFe e) : '\n' ∉ exprChars e :=
  fun hc => exprChars_no_nl h _ hc rfl

theorem not_nl_ident {s : String} (hv : validIdent s) : '\n' ∉ s.data :=
  fun hc => idChar_ne_nl (hv.2.1 _ hc) rfl

/-- Every line of a well-formed statement is nonempty and
newline-free. -/
theorem stmtLines_ok {s : Node} (h : WFs s) :
    ∀ i, ∀ l ∈ stmtLines i s, l ≠ [] ∧ '\n' ∉ l := by
  induction h with
  | passW =>
    intro i l hl
    simp only [stmtLines, List.mem_singleton] at hl
    subst hl
    constructor
    · simp
    · intro hc
      rcases List.mem_append.mp hc with hc | hc
      · exact not_nl_indent i hc
      · exact absurd hc (by decide)
  | exprW hv =>
    intro i l hl
    simp only [stmtLines, List.mem_singleton] at hl
    subst hl
    obtain ⟨c, cs, hh, -⟩ := exprChars_head hv
    constructor
    · rw [hh]; simp
    · intro hc
      rcases List.mem_append.mp hc with hc | hc
      · exact not_nl_indent i hc
      · exact not_nl_expr hv hc
  | defW hvf hne hb ih =>
    intro i l hl
    rw [stmtLines] at hl
    rcases List.mem_cons.mp hl with hl | hl
    · subst hl
      constructor
      · simp
      · intro hc
        simp only [List.mem_append] at hc
        rcases hc with hc | hc | hc | hc
        · exact not_nl_indent i hc
        · exact absurd hc (by decide)
        · exact not_nl_ident hvf hc
        · exact absurd hc (by decide)
    · obtain ⟨s', hs', hl'⟩ := bodyLines_mem hl
      exact ih s' hs' (i + 1) l hl'

theorem stmtLines_head_shape {s : Node} (h : WFs s) (i : Nat) :
    ∃ c r tail, stmtLines i s = (indentChars i ++ c :: r) :: tail ∧ ¬c = ' ' := by
  cases h with
  | passW => exact ⟨'p', "ass".data, [], rfl, by decide⟩
  | exprW hv =>
    obtain ⟨c, cs, hh, hstart⟩ := exprChars_head hv
    refine ⟨c, cs, [], ?_, ?_⟩
    · simp [stmtLines, hh]
    · intro hc
      rw [hc] at hstart
      exact absurd hstart (by decide)
  | defW hvf hne hb =>
    rename_i fn body
    exact ⟨'d', "ef ".data ++ (fn.data ++ "():".data),
      bodyLines (i + 1) body, rfl, by decide⟩

theorem bodyLines_head_indent {ss : List Node} (hWF : ∀ s ∈ ss, WFs s)
    (hne : ss ≠ []) (i : Nat) :
    ∃ l r, bodyLines i ss = l :: r ∧ indentOf l = 4 * i := by
  cases ss with
  | nil => exact absurd rfl hne
  | cons s ss' =>
    obtain ⟨c, r0, tail, hsh, hc⟩ := stmtLines_head_shape (hWF s (by simp)) i
    refine ⟨indentChars i ++ c :: r0, tail ++ bodyLines i ss', ?_,
      (indent_content hc).1⟩
    rw [bodyLines, hsh]
    rfl

/-! ## Splitting is inverse to joining -/

theorem splitLines_no_nl {l : List Char} (h : '\n' ∉ l) : splitLines l = [l] := by
  induction l with
  | nil => rfl
  | cons c cs ih =>
    have hc : ¬c = '\n' := fun hx => h (by simp [hx])
    have ih' := ih (fun hx => h (by simp [hx]))
    simp only [splitLines, if_neg hc, ih']

theorem splitLines_append {l : List Char} (R : List Char) (h : '\n' ∉ l) :
    splitLines (l ++ '\n' :: R) = l :: splitLines R := by
  induction l with
  | nil => simp [splitLines]
  | cons c cs ih =>
    have hc : ¬c = '\n' := fun hx => h (by simp [hx])
    have ih' := ih (fun hx => h (by simp [hx]))
    simp only [List.cons_append, splitLines, if_neg hc, List.append_eq, ih']

theorem splitLines_joinLines {lines : List (List Char)} (hne : lines ≠ [])
    (h : ∀ l ∈ lines, '\n' ∉ l) : splitLines (joinLines lines) = lines := by
  induction lines with
  | nil => exact absurd rfl hne
  | cons l ls ih =>
    cases ls with
    | nil => exact splitLines_no_nl (h l (by simp))
    | cons l2 ls2 =>
      show splitLines (l ++ '\n' :: joinLines (l2 :: ls2)) = _
      rw [splitLines_append _ (h l (by simp))]
      rw [ih (by simp) (fun x hx => h x (by simp [hx]))]

theorem joinLines_ne_nil {lines : List (List Char)} (hne : lines ≠ [])
    (h : ∀ l ∈ lines, l ≠ []) : joinLines lines ≠ [] := by
  cases lines with
  | nil => exact absurd rfl hne
  | cons l ls =>
    cases ls with
    | nil => exact h l (by simp)
    | cons l2 ls2 =>
      show l ++ '\n' :: joinLines (l2 :: ls2) ≠ []
      simp

/-! ## Round trip for statements -/

theorem parseStmts_round (f : Nat) : ∀ (ss : List Node) (i : Nat) rest,
    (∀ s ∈ ss, WFs s) → (bodyLines i ss).length < f → stopB i rest →
    parseStmtsF f i (bodyLines i ss ++ rest) = some (ss, rest) := by
  induction f with
  | zero => intro ss i rest _ hlen _; omega
  | succ f ih =>
    intro ss i rest hWF hlen hstop
    cases ss with
    | nil =>
      simp only [bodyLines, List.nil_append]
      cases rest with
      | nil => rfl
      | cons l ls =>
        have := hstop l rfl
        simp only [parseStmtsF]
        rw [if_neg (by omega)]
    | cons s ss' =>
      have hWFs : WFs s := hWF s (by simp)
      have hWF' : ∀ x ∈ ss', WFs x := fun x hx => hWF x (by simp [hx])
      cases hWFs with
      | passW =>
        have hlen' : (bodyLines i ss').length < f := by
          simp only [bodyLines, stmtLines, List.singleton_append,
            List.length_cons] at hlen
          omega
        have h1 : indentOf (indentChars i ++ "pass".data) = 4 * i :=
          (indent_content (by decide)).1
        have h2 : (indentChars i ++ "pass".data).dropWhile (· == ' ') =
            "pass".data :=
          (indent_content (by decide)).2
        have ht : ("pass".data).takeWhile isIdChar = "pass".data := by decide
        show parseStmtsF (f + 1) i
            ((stmtLines i .passStmt ++ bodyLines i ss') ++ rest) = _
        simp only [stmtLines, List.singleton_append, List.cons_append]
        simp only [parseStmtsF, h1, h2, ht, if_pos rfl, and_self, if_pos trivial]
        simp only [List.nil_append, if_true]
        rw [ih ss' i rest hWF' hlen' hstop]
      | exprW hv =>
        rename_i v
        obtain ⟨c, cs, hh, hstart⟩ := exprChars_head hv
        have hcne : ¬c = ' ' := by
          intro hc
          rw [hc] at hstart
          exact absurd hstart (by decide)
        have hlen' : (bodyLines i ss').length < f := by
          simp only [bodyLines, stmtLines, List.singleton_append,
            List.length_cons] at hlen
          omega
        have h1 : indentOf (indentChars i ++ exprChars v) = 4 * i := by
          rw [hh]
          exact (indent_content hcne).1
        have h2 : (indentChars i ++ exprChars v).dropWhile (· == ' ') =
            exprChars v := by
          rw [hh]
          exact (indent_content hcne).2
        have htok := (tok_expr hv).1
        have hkw := validIdent_not_kw (base_valid hv)
        have hcond1 : ¬((exprChars v).takeWhile isIdChar = "pass".data ∧
            exprChars v = "pass".data) := by
          intro hx
          rw [htok] at hx
          exact hkw.2 hx.1
        have hcond2 : ¬((exprChars v).takeWhile isIdChar = "def".data) := by
          intro hx
          rw [htok] at hx
          exact hkw.1 hx
        have hE := parseExprC_round hv
        show parseStmtsF (f + 1) i
            ((stmtLines i (.exprStmt v) ++ bodyLines i ss') ++ rest) = _
        simp only [stmtLines, List.singleton_append, List.cons_append]
        simp only [parseStmtsF, h1, h2, if_pos rfl, if_neg hcond1,
          if_neg hcond2, hE]
        simp only [List.nil_append, if_true]
        rw [ih ss' i rest hWF' hlen' hstop]
      | defW hvf hne hb =>
        rename_i fn body
        obtain ⟨b, bb, rfl⟩ : ∃ b bb, body = b :: bb := by
          cases body with
          | nil => exact absurd rfl hne
          | cons b bb => exact ⟨b, bb, rfl⟩
        have h1 : indentOf (indentChars i ++ 'd' :: 'e' :: 'f' :: ' ' ::
            (fn.data ++ ['(', ')', ':'])) = 4 * i :=
          (indent_content (by decide)).1
        have h2 : (indentChars i ++ 'd' :: 'e' :: 'f' :: ' ' ::
            (fn.data ++ ['(', ')', ':'])).dropWhile (· == ' ') =
            'd' :: 'e' :: 'f' :: ' ' :: (fn.data ++ ['(', ')', ':']) :=
          (indent_content (by decide)).2
        have htokA : List.takeWhile isIdChar ('d' :: 'e' :: 'f' :: ' ' ::
            (fn.data ++ ['(', ')', ':'])) = ['d', 'e', 'f'] :=
          (tok_def_header (fn.data ++ ['(', ')', ':'])).1
        have htokB : List.dropWhile isIdChar ('d' :: 'e' :: 'f' :: ' ' ::
            (fn.data ++ ['(', ')', ':'])) =
            ' ' :: (fn.data ++ ['(', ')', ':']) :=
          (tok_def_header (fn.data ++ ['(', ')', ':'])).2
        have hcond1 : ¬(List.takeWhile isIdChar ('d' :: 'e' :: 'f' :: ' ' ::
            (fn.data ++ ['(', ')', ':'])) = ['p', 'a', 's', 's'] ∧
            'd' :: 'e' :: 'f' :: ' ' :: (fn.data ++ ['(', ')', ':']) =
              ['p', 'a', 's', 's']) := by
          intro hx
          rw [htokA] at hx
          exact absurd hx.1 (by decide)
        have hH : parseHeaderName (fn.data ++ ['(', ')', ':']) = some fn :=
          parseHeaderName_spec hvf
        have hexp : bodyLines i (Node.functionDef fn (b :: bb) :: ss') =
            (indentChars i ++ ("def ".data ++ (fn.data ++ "():".data))) ::
              (bodyLines (i + 1) (b :: bb) ++ bodyLines i ss') := by
          rw [bodyLines, stmtLines]
          rfl
        rw [hexp] at hlen
        simp only [List.length_cons, List.length_append] at hlen
        have hlenB : (bodyLines (i + 1) (b :: bb)).length < f := by omega
        have hlenS : (bodyLines i ss').length < f := by omega
        have hstopB : stopB (i + 1) (bodyLines i ss' ++ rest) := by
          intro l hl
          cases ss' with
          | nil =>
            simp only [bodyLines, List.nil_append] at hl
            have := hstop l hl
            omega
          | cons s2 ss2 =>
            obtain ⟨l0, r0, hb0, hi0⟩ := bodyLines_head_indent hWF' (by simp) i
            rw [hb0] at hl
            simp only [List.cons_append, List.head?_cons,
              Option.some.injEq] at hl
            subst hl
            omega
        have hB := ih (b :: bb) (i + 1) (bodyLines i ss' ++ rest) hb hlenB hstopB
        have hS := ih ss' i rest hWF' hlenS hstop
        show parseStmtsF (f + 1) i
            ((stmtLines i (.functionDef fn (b :: bb)) ++ bodyLines i ss') ++
              rest) = _
        simp only [stmtLines, List.cons_append, List.append_assoc,
          List.nil_append]
        simp only [parseStmtsF, h1, h2, htokA, htokB, hH]
        rw [if_pos trivial]
        rw [if_neg (fun hx => absurd hx.1
          (by decide : ¬(['d', 'e', 'f'] = ['p', 'a', 's', 's'])))]
        rw [if_pos trivial]
        rw [if_pos trivial]
        simp only [hB, hS]

/-! ## The full round trip: `ast.parse` inverts `ast.unparse` -/

theorem bodyLines_ne_nil {ss : List Node} (hWF : ∀ s ∈ ss, WFs s)
    (hne : ss ≠ []) (i : Nat) : bodyLines i ss ≠ [] := by
  obtain ⟨l, r, hb, -⟩ := bodyLines_head_indent hWF hne i
  simp [hb]

/-- Regenerated source of a well-formed module parses back to exactly the
same tree. -/
theorem parse_unparse {t : Node} (h : WFm t) : parseSrc (unparse t) = .ok t := by
  obtain ⟨body, rfl, hWF⟩ := h
  cases body with
  | nil => rfl
  | cons s ss =>
    have hlines : ∀ l ∈ bodyLines 0 (s :: ss), l ≠ [] ∧ '\n' ∉ l := by
      intro l hl
      obtain ⟨s', hs', hl'⟩ := bodyLines_mem hl
      exact stmtLines_ok (hWF s' hs') 0 l hl'
    have hne : bodyLines 0 (s :: ss) ≠ [] := bodyLines_ne_nil hWF (by simp) 0
    have hjne : joinLines (bodyLines 0 (s :: ss)) ≠ [] :=
      joinLines_ne_nil hne (fun l hl => (hlines l hl).1)
    have hsplit : splitLines (joinLines (bodyLines 0 (s :: ss))) =
        bodyLines 0 (s :: ss) :=
      splitLines_joinLines hne (fun l hl => (hlines l hl).2)
    obtain ⟨c, cs, hdata⟩ : ∃ c cs,
        joinLines (bodyLines 0 (s :: ss)) = c :: cs := by
      cases hJ : joinLines (bodyLines 0 (s :: ss)) with
      | nil => exact absurd hJ hjne
      | cons c cs => exact ⟨c, cs, rfl⟩
    have hparse := parseStmts_round ((bodyLines 0 (s :: ss)).length + 1)
      (s :: ss) 0 [] hWF (by omega) (fun l hl => by simp at hl)
    rw [List.append_nil] at hparse
    have hsp : splitLines (c :: cs) = bodyLines 0 (s :: ss) := by
      rw [← hdata, hsplit]
    rw [show unparse (Node.module (s :: ss)) = String.mk (c :: cs) from
      congrArg String.mk hdata]
    show (match parseStmtsF ((splitLines (c :: cs)).length + 1) 0
        (splitLines (c :: cs)) with
      | some (ss', []) => Except.ok (Node.module ss')
      | _ => Except.error "invalid syntax") = Except.ok (Node.module (s :: ss))
    rw [hsp, hparse]

/-! ## Parse results are well-formed -/

theorem parseIdent_valid {cs : List Char} {s : String} {r : List Char}
    (h : parseIdent cs = some (s, r)) : validIdent s := by
  cases cs with
  | nil => exact absurd h (by simp [parseIdent])
  | cons c cs' =>
    simp only [parseIdent] at h
    by_cases hs : isIdStart c = true
    · rw [if_pos hs] at h
      by_cases hk : keyword (String.mk (c :: cs'.takeWhile isIdChar)) = true
      · rw [if_pos hk] at h
        exact absurd h (by simp)
      · rw [if_neg hk] at h
        simp only [Option.some.injEq, Prod.mk.injEq] at h
        obtain ⟨hseq, -⟩ := h
        subst hseq
        refine ⟨⟨c, cs'.takeWhile isIdChar, rfl, hs⟩, ?_,
          by simpa using hk⟩
        intro x hx
        rcases List.mem_cons.mp hx with rfl | hx
        · exact isIdStart_isIdChar hs
        · exact List.mem_takeWhile_imp hx
    · rw [if_neg hs] at h
      exact absurd h (by simp)
theorem trail_args_sound (f : Nat) :
    (∀ (e : Node) cs e' r, parseTrail f e cs = some (e', r) → WFe e → WFe e') ∧
    (∀ cs args r, parseArgsF f cs = some (args, r) → ∀ a ∈ args, WFe a) := by
  induction f with
  | zero =>
    constructor
    · intro e cs e' r h
      exact absurd h (by simp [parseTrail])
    · intro cs args r h
      exact absurd h (by simp [parseArgsF])
  | succ f ih =>
    obtain ⟨ihT, ihA⟩ := ih
    constructor
    · intro e cs e' r h hWF
      cases cs with
      | nil =>
        simp only [parseTrail, Option.some.injEq, Prod.mk.injEq] at h
        obtain ⟨rfl, -⟩ := h
        exact hWF
      | cons c cs' =>
        simp only [parseTrail] at h
        split at h
        next hdot =>
          split at h
          next a cs'' hI =>
            exact ihT _ _ _ _ h (.attrW hWF (parseIdent_valid hI))
          next => exact absurd h (by simp)
        next hdot =>
          split at h
          next hpar =>
            split at h
            next => exact absurd h (by simp)
            next c2 cs2 =>
              split at h
              next hrp =>
                exact ihT _ _ _ _ h (.callW hWF (by intro x hx; simp at hx))
              next hrp =>
                split at h
                next args c3 cs3 hA =>
                  split at h
                  next hr3 =>
                    exact ihT _ _ _ _ h (.callW hWF (ihA _ _ _ hA))
                  next hr3 => exact absurd h (by simp)
                next => exact absurd h (by simp)
          next hpar =>
            simp only [Option.some.injEq, Prod.mk.injEq] at h
            obtain ⟨rfl, -⟩ := h
            exact hWF
    · intro cs args r h
      simp only [parseArgsF] at h
      split at h
      next i0 cs' hI =>
        split at h
        next e c cs'' hT =>
          have hWFe : WFe e := ihT _ _ _ _ hT (.nameW (parseIdent_valid hI))
          split at h
          next hcm =>
            split at h
            next c2 cs3 =>
              split at h
              next hsp2 =>
                split at h
                next es cs4 hA =>
                  simp only [Option.some.injEq, Prod.mk.injEq] at h
                  obtain ⟨hargs, -⟩ := h
                  subst hargs
                  intro a ha
                  rcases List.mem_cons.mp ha with rfl | ha
                  · exact hWFe
                  · exact ihA _ _ _ hA a ha
                next hA => exact absurd h (by simp)
              next hsp2 => exact absurd h (by simp)
            next => exact absurd h (by simp)
          next hcm =>
            simp only [Option.some.injEq, Prod.mk.injEq] at h
            obtain ⟨hargs, -⟩ := h
            subst hargs
            intro a ha
            rw [List.mem_singleton] at ha
            subst ha
            exact hWFe
        next e hT =>
          have hWFe : WFe e := ihT _ _ _ _ hT (.nameW (parseIdent_valid hI))
          simp only [Option.some.injEq, Prod.mk.injEq] at h
          obtain ⟨hargs, -⟩ := h
          subst hargs
          intro a ha
          rw [List.mem_singleton] at ha
          subst ha
          exact hWFe
        next hT => exact absurd h (by simp)
      next hI => exact absurd h (by simp)

theorem parseExprC_sound {cs : List Char} {e : Node}
    (h : parseExprC cs = some e) : WFe e := by
  simp only [parseExprC] at h
  split at h
  next i0 cs' hI =>
    split at h
    next e' hT =>
      simp only [Option.some.injEq] at h
      subst h
      exact (trail_args_sound _).1 _ _ _ _ hT (.nameW (parseIdent_valid hI))
    next hT => exact absurd h (by simp)
  next hI => exact absurd h (by simp)

theorem parseHeaderName_sound {content : List Char} {fn : String}
    (h : parseHeaderName content = some fn) : validIdent fn := by
  simp only [parseHeaderName] at h
  split at h
  next f0 rest hI =>
    split at h
    next hr =>
      simp only [Option.some.injEq] at h
      subst h
      exact parseIdent_valid hI
    next hr => exact absurd h (by simp)
  next hI => exact absurd h (by simp)

theorem parseStmts_sound (f : Nat) : ∀ i lines ss r,
    parseStmtsF f i lines = some (ss, r) → ∀ s ∈ ss, WFs s := by
  induction f with
  | zero =>
    intro i lines ss r h
    exact absurd h (by simp [parseStmtsF])
  | succ f ih =>
    intro i lines ss r h
    cases lines with
    | nil =>
      simp only [parseStmtsF, Option.some.injEq, Prod.mk.injEq] at h
      obtain ⟨h1, -⟩ := h
      subst h1
      intro s hs
      simp at hs
    | cons l ls =>
      simp only [parseStmtsF] at h
      split at h
      case isTrue hind =>
        split at h
        case isTrue hp =>
          split at h
          next ss1 r1 hS =>
            simp only [Option.some.injEq, Prod.mk.injEq] at h
            obtain ⟨h1, -⟩ := h
            subst h1
            intro s hs
            rcases List.mem_cons.mp hs with rfl | hs
            · exact .passW
            · exact ih _ _ _ _ hS s hs
          next hS => exact absurd h (by simp)
        case isFalse hp =>
          split at h
          case isTrue hd =>
            split at h
            next hdw => exact absurd h (by simp)
            next c afterKw hdw =>
              split at h
              case isTrue hsp =>
                split at h
                next fn hH =>
                  split at h
                  next hB => exact absurd h (by simp)
                  next body rB hne0 hB =>
                    split at h
                    next ss1 r1 hS =>
                      simp only [Option.some.injEq, Prod.mk.injEq] at h
                      obtain ⟨h1, -⟩ := h
                      subst h1
                      intro s hs
                      rcases List.mem_cons.mp hs with rfl | hs
                      · exact .defW (parseHeaderName_sound hH) hne0 (ih _ _ _ _ hB)
                      · exact ih _ _ _ _ hS s hs
                    next hS => exact absurd h (by simp)
                  next hB => exact absurd h (by simp)
                next hH => exact absurd h (by simp)
              case isFalse hsp => exact absurd h (by simp)
          case isFalse hd =>
            split at h
            next e hE =>
              split at h
              next ss1 r1 hS =>
                simp only [Option.some.injEq, Prod.mk.injEq] at h
                obtain ⟨h1, -⟩ := h
                subst h1
                intro s hs
                rcases List.mem_cons.mp hs with rfl | hs
                · exact .exprW (parseExprC_sound hE)
                · exact ih _ _ _ _ hS s hs
              next hS => exact absurd h (by simp)
            next hE => exact absurd h (by simp)
      case isFalse hind =>
        simp only [Option.some.injEq, Prod.mk.injEq] at h
        obtain ⟨h1, -⟩ := h
        subst h1
        intro s hs
        simp at hs

theorem parseSrc_WF {s : String} {t : Node} (h : parseSrc s = .ok t) :
    WFm t := by
  simp only [parseSrc] at h
  split at h
  next hdata =>
    simp only [Except.ok.injEq] at h
    subst h
    exact ⟨[], rfl, by intro x hx; simp at hx⟩
  next c cs hdata =>
    split at h
    next ss hP =>
      simp only [Except.ok.injEq] at h
      subst h
      exact ⟨ss, rfl, parseStmts_sound _ _ _ _ _ hP⟩
    next hP => exact absurd h (by simp)

/-! ## Nodes reachable in the walk of a well-formed module -/

theorem WFany_children {n : Node} (h : WFany n) : ∀ c ∈ children n, WFany c := by
  rcases h with hm | hs | he
  · obtain ⟨body, rfl, hb⟩ := hm
    intro c hc
    exact .inr (.inl (hb c hc))
  · cases hs with
    | passW => intro c hc; simp [children] at hc
    | exprW hv =>
      intro c hc
      simp only [children] at hc
      rw [List.mem_singleton] at hc
      subst hc
      exact .inr (.inr hv)
    | defW hvf hne hb => intro c hc; exact .inr (.inl (hb c hc))
  · cases he with
    | nameW hv => intro c hc; simp [children] at hc
    | attrW hv hva =>
      intro c hc
      simp only [children] at hc
      rw [List.mem_singleton] at hc
      subst hc
      exact .inr (.inr hv)
    | callW hf ha =>
      intro c hc
      simp only [children] at hc
      rcases List.mem_cons.mp hc with rfl | hc
      · exact .inr (.inr hf)
      · exact .inr (.inr (ha c hc))

theorem walkListF_WFany (f : Nat) : ∀ ns, (∀ n ∈ ns, WFany n) →
    ∀ m ∈ walkListF f ns, WFany m := by
  induction f with
  | zero => intro ns h m hm; simp [walkListF] at hm
  | succ f ih =>
    intro ns h m hm
    cases ns with
    | nil => simp [walkListF] at hm
    | cons n ns' =>
      rw [show walkListF (f + 1) (n :: ns') =
        (n :: ns') ++ walkListF f ((n :: ns').flatMap children) from rfl] at hm
      rcases List.mem_append.mp hm with hm | hm
      · exact h m hm
      · refine ih _ ?_ m hm
        intro x hx
        rw [List.mem_flatMap] at hx
        obtain ⟨p, hp, hxp⟩ := hx
        exact WFany_children (h p hp) x hxp

theorem walk_WFany {t : Node} (h : WFm t) : ∀ n ∈ walk t, WFany n := by
  intro n hn
  refine walkListF_WFany (sizeN t) [t] ?_ n hn
  intro x hx
  rw [List.mem_singleton] at hx
  subst hx
  exact .inl h

/-! ## Remaining claim theorems -/

/-- **C9**: for every syntactically valid input source, `analyze_code`
returns exactly `"No issues found"`: a function definition produced by
the parser always has a nonempty body, so the empty-function branch is
unreachable and no finding is ever emitted. -/
theorem analyze_valid_always_no_issues (s : String) (t : Node)
    (hp : parseSrc s = .ok t) :
    analyze_code s = "No issues found" ∧
    ∀ fn body, Node.functionDef fn body ∈ walk t → body ≠ [] := by
  have hW := walk_WFany (parseSrc_WF hp)
  have hbody : ∀ fn body, Node.functionDef fn body ∈ walk t → body ≠ [] := by
    intro fn body hmem
    rcases hW _ hmem with hm | hs | he
    · obtain ⟨b, hb, -⟩ := hm
      exact absurd hb (by simp)
    · cases hs with
      | defW hvf hne hb2 => exact hne
    · cases he
  have hnone : ∀ n ∈ walk t, findingOf n = none := by
    intro n hn
    cases n with
    | functionDef fn body =>
      cases body with
      | nil => exact absurd rfl (hbody fn [] hn)
      | cons b bb => rfl
    | module b => rfl
    | passStmt => rfl
    | exprStmt v => rfl
    | call f args => rfl
    | attributeN v a => rfl
    | nameN i => rfl
  exact ⟨by simp [analyze_code, hp, analyzeTree_of_no_findings t hnone], hbody⟩

/-- Witness for `analyze_valid_always_no_issues` at the source `"x"`. -/
theorem analyze_valid_always_no_issues_witness :
    parseSrc "x" = .ok (.module [.exprStmt (.nameN "x")]) ∧
    (analyze_code "x" = "No issues found" ∧
      ∀ fn body, Node.functionDef fn body ∈
        walk (.module [.exprStmt (.nameN "x")]) → body ≠ []) :=
  ⟨rfl, analyze_valid_always_no_issues "x" (.module [.exprStmt (.nameN "x")]) rfl⟩

/-- **C6**: for every syntactically valid source containing zero `print`
calls, re-parsing the text returned by `refactor_code` yields exactly the
tree parsed from the input: the loop changes nothing, and regeneration
round-trips through the parser. -/
theorem refactor_no_print_roundtrip (s : String) (t : Node)
    (hp : parseSrc s = .ok t)
    (_hnp : ∀ n ∈ walk t, isPrintCall n = false) :
    parseSrc (refactor_code s) = .ok t := by
  have h1 : refactor_code s = unparse t := by
    simp [refactor_code, hp, refactorLoop_eq]
  rw [h1]
  exact parse_unparse (parseSrc_WF hp)

/-- Witness for `refactor_no_print_roundtrip` at `"logging.info(x)"`. -/
theorem refactor_no_print_roundtrip_witness :
    parseSrc "logging.info(x)" = .ok (.module [.exprStmt (.call
      (.attributeN (.nameN "logging") "info") [.nameN "x"])]) ∧
    (∀ n ∈ walk (.module [.exprStmt (.call
      (.attributeN (.nameN "logging") "info") [.nameN "x"])]),
        isPrintCall n = false) ∧
    parseSrc (refactor_code "logging.info(x)") = .ok (.module [.exprStmt (.call
      (.attributeN (.nameN "logging") "info") [.nameN "x"])]) :=
  ⟨rfl, by decide, refactor_no_print_roundtrip "logging.info(x)" _ rfl (by decide)⟩

/-- **C7**: applying `refactor_code` to the output of `refactor_code`
rewrites nothing further on any parseable input — in particular calls
already reading `logging.info` are left unchanged by the second run
(the transformation never modifies the tree at all). -/
theorem refactor_idempotent (s : String) (t : Node)
    (hp : parseSrc s = .ok t) :
    refactor_code (refactor_code s) = refactor_code s := by
  have h1 : refactor_code s = unparse t := by
    simp [refactor_code, hp, refactorLoop_eq]
  rw [h1]
  have h2 : parseSrc (unparse t) = .ok t := parse_unparse (parseSrc_WF hp)
  simp [refactor_code, h2, refactorLoop_eq]

/-- Witness for `refactor_idempotent` at `"logging.info(a, b)"`. -/
theorem refactor_idempotent_witness :
    parseSrc "logging.info(a, b)" = .ok (.module [.exprStmt (.call
      (.attributeN (.nameN "logging") "info") [.nameN "a", .nameN "b"])]) ∧
    refactor_code (refactor_code "logging.info(a, b)") =
      refactor_code "logging.info(a, b)" :=
  ⟨rfl, refactor_idempotent "logging.info(a, b)" (.module [.exprStmt (.call
    (.attributeN (.nameN "logging") "info") [.nameN "a", .nameN "b"])]) rfl⟩

end A3sist
